import Mathlib

/-!
Shallow embedding of a BIND 9 resolver-cache slice together with two library
routines (`dns_kasplist_find` from `lib/dns/kasp.c` and `hmacmd5_verify` from
the DST HMAC-MD5 link module), plus the theorems that settle the stated
properties about them.

The cache engine proper (the name tree, flush coordinator and cleaning
engine) is exercised only through its system tests
(`bin/tests/system/cacheclean/tests.sh`) in the provided sources, so the
definitions in namespace `DnsCache` are modelled from the specification text;
each such definition's doc comment records which part of the spec it follows.
The `Kasp` and `Hmac` namespaces are translated directly from the C sources.
-/

/-- Result codes shared by the modelled entry points (ISC_R_SUCCESS and
ISC_R_NOTFOUND). -/
inductive IscResult where
  | success
  | notfound
deriving DecidableEq

namespace DnsCache

/-- Modelled from the spec: a domain name is an ordered sequence of labels,
canonicalized for comparison; we keep the most specific label first, so that
`M` is an ancestor-or-self of `N` iff `M`'s label list is a suffix of `N`'s. -/
abbrev Label := String

abbrev Name := List Label

/-- Modelled from the spec: trust/validity class of a cache entry (positive,
negative-nxdomain, negative-nxrrset, empty-nonterminal marker). -/
inductive EntryKind where
  | positive
  | nxdomain
  | nxrrset
  | emptyNonterminal
deriving DecidableEq

/-- Modelled from the spec: an RRset is one type's answer at one name, with an
absolute expiry timestamp (insertion time + TTL) and a trust level. -/
structure RRset where
  rtype : Nat
  kind : EntryKind
  records : List String
  expiry : Nat
  trust : Nat
deriving DecidableEq

/-- Modelled from the spec: the absolute expiry is insertion time + TTL. -/
def mkRRset (t : Nat) (k : EntryKind) (recs : List String) (tr ttl now : Nat) :
    RRset :=
  { rtype := t, kind := k, records := recs, expiry := now + ttl, trust := tr }

/-- Modelled from the spec: expiry is interpreted at read time — an RRset is
expired iff its absolute expiry is ≤ now. -/
def RRset.expired (r : RRset) (now : Nat) : Bool :=
  decide (r.expiry ≤ now)

/-- Modelled from the spec: a cache node holds the RRsets of one owner name
(at most one live RRset per type) and a reference count. -/
structure Node where
  rrsets : List RRset
  refcount : Nat
deriving DecidableEq

/-- Modelled from the spec: the index is a flat structure keyed by canonical
name; subtree membership is a logical (suffix) predicate, not a pointer walk. -/
abbrev Cache := List (Name × Node)

/-- Modelled from the spec: `isSuffixName m n` decides whether `m`'s label
sequence is a suffix of `n`'s, i.e. whether `n` lies in the subtree rooted at
`m` (`n = m` included). -/
def isSuffixName (m : Name) : Name → Bool
  | [] => decide (m = ([] : Name))
  | b :: rest => decide (m = b :: rest) || isSuffixName m rest

/-- First-match association lookup of the node stored at a name. -/
def findNode (c : Cache) (n : Name) : Option Node :=
  match c with
  | [] => none
  | e :: rest => if e.1 = n then some e.2 else findNode rest n

/-- First RRset of the requested type in a node's RRset list. -/
def findRRset (rrs : List RRset) (t : Nat) : Option RRset :=
  match rrs with
  | [] => none
  | r :: rest => if r.rtype = t then some r else findRRset rest t

/-- RRset of the given type at the given name, without the expiry check. -/
def findTypeAt (c : Cache) (n : Name) (t : Nat) : Option RRset :=
  match findNode c n with
  | none => none
  | some node => findRRset node.rrsets t

/-- Modelled from the spec: replace-or-insert of one type's RRset under the
trust rule — incoming data replaces existing data unless the existing data has
strictly higher trust and has not yet expired. -/
def storeRRset : List RRset → RRset → Nat → List RRset
  | [], r, _ => [r]
  | old :: rest, r, now =>
    if old.rtype = r.rtype then
      if r.trust < old.trust ∧ ¬ (old.expired now = true) then
        old :: rest
      else
        r :: rest
    else
      old :: storeRRset rest r now

/-- Modelled from the spec: `store` creates the node on first insert at a name
(empty non-terminal ancestors are not physically created) and otherwise
replaces or inserts by type under the trust rule. -/
def store : Cache → Name → RRset → Nat → Cache
  | [], n, r, _ => [(n, { rrsets := [r], refcount := 0 })]
  | e :: rest, n, r, now =>
    if e.1 = n then
      (n, { rrsets := storeRRset e.2.rrsets r now, refcount := e.2.refcount }) :: rest
    else
      e :: store rest n r now

/-- Modelled from the spec: lookup descends to the node, reads the type's
RRset, and treats a found-but-expired entry as a miss (lazy expiry). -/
def lookup (c : Cache) (n : Name) (t : Nat) (now : Nat) : Option RRset :=
  (findTypeAt c n t).bind (fun r => if r.expired now then none else some r)

/-- Modelled from the spec: `flushName` is exact-match only — it removes all
RRsets at that precise name and nothing else, returning success even when the
name was absent. -/
def flushName (c : Cache) (n : Name) : IscResult × Cache :=
  (IscResult.success, c.filter (fun e => ! decide (e.1 = n)))

/-- Modelled from the spec: `rangeUnderName` enumerates every indexed node
whose name is the target itself or a descendant of it. -/
def rangeUnderName (c : Cache) (n : Name) : Cache :=
  c.filter (fun e => isSuffixName n e.1)

/-- Modelled from the spec: the root name, whose subtree is the whole index. -/
def rootName : Name := []

/-- Modelled from the spec: `flushTree` removes the node at the target name
(if present) and every descendant, keyed purely on name containment so that a
missing apex still clears real descendants; success is returned even when
nothing existed at or under the name. -/
def flushTree (c : Cache) (n : Name) : IscResult × Cache :=
  (IscResult.success, c.filter (fun e => ! isSuffixName n e.1))

/-- Modelled from the spec: `flushAll` invalidates every node, atomically from
the caller's point of view; the generation-counter implementation with lazy
reclamation is observationally equivalent to this in a sequential model. -/
def flushAll (c : Cache) : IscResult × Cache :=
  (IscResult.success, [])

/-- Modelled from the spec: one cleaning step on a node removes its expired
RRsets; the node itself is reclaimed when no RRsets remain and its reference
count is zero. -/
def sweepNode (node : Node) (now : Nat) : Option Node :=
  let keep := node.rrsets.filter (fun r => ! r.expired now)
  if keep.isEmpty ∧ node.refcount = 0 then none
  else some { rrsets := keep, refcount := node.refcount }

/-- Modelled from the spec: the eager cleaning sweep removes expired RRsets
everywhere and reclaims nodes left with no RRsets and no references. -/
def sweep (c : Cache) (now : Nat) : Cache :=
  c.filterMap (fun e => (sweepNode e.2 now).map (fun nd => (e.1, nd)))

/-- Modelled from the spec: the fixed ceiling on reported TTLs in the default
test configuration (3600 seconds). -/
def ttlCeiling : Nat := 3600

/-- Modelled from the spec: one line of the outbound dump iteration contract —
name, type, remaining TTL, trust class and record data of a live RRset. -/
structure DumpEntry where
  name : Name
  rtype : Nat
  kind : EntryKind
  remainingTTL : Nat
  trust : Nat
  records : List String
deriving DecidableEq

/-- Modelled from the spec: the remaining TTL reported by the dump contract is
absolute expiry minus now, capped at the configured ceiling. -/
def reportedTTL (r : RRset) (now : Nat) : Nat :=
  min (r.expiry - now) ttlCeiling

/-- Dump lines produced for one node: one entry per non-expired RRset. -/
def dumpNode (n : Name) (node : Node) (now : Nat) : List DumpEntry :=
  node.rrsets.filterMap (fun r =>
    if r.expired now then none
    else some { name := n, rtype := r.rtype, kind := r.kind,
                remainingTTL := reportedTTL r now, trust := r.trust,
                records := r.records })

/-- Modelled from the spec: the dump iteration contract enumerates, for every
live node, every live RRset with its reported remaining TTL. -/
def dump (c : Cache) (now : Nat) : List DumpEntry :=
  c.flatMap (fun e => dumpNode e.1 e.2 now)

/-! ### Helper lemmas about the index -/

theorem findNode_filter (p : Name → Bool) (c : Cache) (m : Name) :
    findNode (c.filter (fun e => p e.1)) m
      = (if p m then findNode c m else none) := by
  induction c with
  | nil => simp [findNode]
  | cons e rest ih =>
    by_cases he : e.1 = m
    · cases hp : p e.1 <;>
        simp [List.filter_cons, hp, findNode, he, ih, he ▸ hp]
    · cases hp : p e.1 <;>
        simp [List.filter_cons, hp, findNode, he, ih]

theorem findNode_none_filter_eq_self (c : Cache) (n : Name)
    (h : findNode c n = none) :
    c.filter (fun e => ! decide (e.1 = n)) = c := by
  induction c with
  | nil => rfl
  | cons e rest ih =>
    by_cases he : e.1 = n
    · simp [findNode, he] at h
    · simp only [findNode, if_neg he] at h
      simp [List.filter_cons, he, ih h]

theorem isSuffixName_nil_left (n : Name) : isSuffixName [] n = true := by
  induction n with
  | nil => rfl
  | cons b rest ih => simp [isSuffixName, ih]

theorem isSuffixName_refl (n : Name) : isSuffixName n n = true := by
  cases n with
  | nil => rfl
  | cons b rest => simp [isSuffixName]

theorem lookup_eq_of_findNode_eq (c d : Cache) (m : Name)
    (h : findNode d m = findNode c m) (t now : Nat) :
    lookup d m t now = lookup c m t now := by
  simp [lookup, findTypeAt, h]

/-- Well-formedness of the flat index: every owner name occurs at most once. -/
def keysNodup (c : Cache) : Prop :=
  (c.map Prod.fst).Nodup

/-- Number of RRsets of one type inside a node's RRset list. -/
def countType (rrs : List RRset) (t : Nat) : Nat :=
  (rrs.filter (fun x => decide (x.rtype = t))).length

/-! ### Concrete caches used to instantiate the theorems -/

/-- Sample positive TXT RRset stored at time 0 with TTL 3600. -/
def rrTxt : RRset := mkRRset 16 EntryKind.positive ["sample-text"] 0 3600 0

/-- Sample node holding just `rrTxt`. -/
def nodeTxt : Node := { rrsets := [rrTxt], refcount := 0 }

/-- Sample cache holding one leaf name, with no node at its parent. -/
def cacheW : Cache := [(["second1", "top2", "example"], nodeTxt)]

/-- Dump line produced for `rrTxt` when `cacheW` is dumped at time 0. -/
def entryW : DumpEntry :=
  { name := ["second1", "top2", "example"], rtype := 16,
    kind := EntryKind.positive, remainingTTL := 3600, trust := 0,
    records := ["sample-text"] }

/-- Modelled from the spec: the operation alphabet of the count invariant —
stores (which receive a TTL and are stamped with the current time) and the
three flush operations. -/
inductive CacheOp where
  | storeOp (n : Name) (t : Nat) (k : EntryKind) (recs : List String) (tr ttl : Nat)
  | flushNameOp (n : Name)
  | flushTreeOp (n : Name)
  | flushAllOp

/-- One operation applied to the cache at time `now`. -/
def applyOp (now : Nat) (c : Cache) : CacheOp → Cache
  | CacheOp.storeOp n t k recs tr ttl => store c n (mkRRset t k recs tr ttl now) now
  | CacheOp.flushNameOp n => (flushName c n).2
  | CacheOp.flushTreeOp n => (flushTree c n).2
  | CacheOp.flushAllOp => (flushAll c).2

/-- One time-stamped operation applied to the cache; the first component is
the instant at which the operation runs, so time may pass (and RRsets may
expire) between consecutive operations of a sequence. -/
def applyTimedOp (c : Cache) (top : Nat × CacheOp) : Cache :=
  applyOp top.1 c top.2

/-- A sequence of time-stamped operations applied in order, with no cleaning
sweep in between — lazy expiry only, as the claim's unqualified reading has
it. -/
def applyTimedOps (ops : List (Nat × CacheOp)) (c : Cache) : Cache :=
  ops.foldl applyTimedOp c

/-- One time-stamped operation with the cleaning engine's eager sweep running
at the operation's instant, as the amended invariant requires. -/
def applyOpSwept (c : Cache) (top : Nat × CacheOp) : Cache :=
  sweep (applyOp top.1 c top.2) top.1

/-- A sequence of time-stamped operations, each accompanied by an eager sweep
at its own instant. -/
def applyOpsSwept (ops : List (Nat × CacheOp)) (c : Cache) : Cache :=
  ops.foldl applyOpSwept c

/-- A node is live when it holds at least one non-expired RRset. -/
def nodeLive (now : Nat) (node : Node) : Bool :=
  node.rrsets.any (fun r => ! r.expired now)

/-- An indexed entry is an empty non-terminal required as an anchor when it
has no RRsets but some other indexed name lies strictly below it. -/
def entRequired (c : Cache) (e : Name × Node) : Bool :=
  e.2.rrsets.isEmpty
    && c.any (fun x => isSuffixName e.1 x.1 && ! decide (x.1 = e.1))

/-- Modelled from the spec: a node may exist in the index only if it has a
non-expired RRset, or a positive reference count from an in-flight lookup, or
is an empty non-terminal required to anchor an existing descendant. -/
def nodeRequired (c : Cache) (now : Nat) (e : Name × Node) : Bool :=
  nodeLive now e.2 || decide (0 < e.2.refcount) || entRequired c e

/-- Time-stamped operation sequence refuting the unqualified count invariant:
a store with TTL 1 performed at time 0, then an unrelated point flush at time
2, with no sweep in between. -/
def opsCexC7 : List (Nat × CacheOp) :=
  [(0, CacheOp.storeOp ["a", "example"] 16 EntryKind.positive ["x"] 0 1),
   (2, CacheOp.flushNameOp ["b", "example"])]

/-! ### Helper lemmas about store, lookup and the cleaning sweep -/

theorem sweep_mem_live_or_ref (c : Cache) (tm : Nat) :
    ∀ e ∈ sweep c tm,
      (nodeLive tm e.2 || decide (0 < e.2.refcount)) = true := by
  intro e he
  rw [sweep] at he
  rcases List.mem_filterMap.mp he with ⟨p, _, hsome⟩
  cases hsw : sweepNode p.2 tm with
  | none =>
    rw [hsw] at hsome
    simp at hsome
  | some nd =>
    rw [hsw] at hsome
    have hsome' : (p.1, nd) = e := by simpa using hsome
    subst hsome'
    rw [sweepNode] at hsw
    by_cases hcond :
        (p.2.rrsets.filter (fun r => ! r.expired tm)).isEmpty = true
          ∧ p.2.refcount = 0
    · rw [if_pos hcond] at hsw
      exact absurd hsw (by simp)
    · rw [if_neg hcond] at hsw
      injection hsw with hsw
      rcases not_and_or.mp hcond with hne | hrc
      · have hkeep : p.2.rrsets.filter (fun r => ! r.expired tm) ≠ [] :=
          fun hnil => hne (List.isEmpty_iff.mpr hnil)
        rcases List.exists_mem_of_ne_nil _ hkeep with ⟨x, hx⟩
        have hlive : nodeLive tm nd = true := by
          rw [← hsw, nodeLive]
          exact List.any_eq_true.mpr ⟨x, hx, (List.mem_filter.mp hx).2⟩
        simp [hlive]
      · have hrcnd : 0 < nd.refcount := by
          rw [← hsw]
          exact Nat.pos_of_ne_zero hrc
        simp [hrcnd]

/-! ### Helper lemmas about store, lookup and the cleaning sweep (continued) -/

theorem findRRset_mem (rrs : List RRset) (t : Nat) (r : RRset)
    (h : findRRset rrs t = some r) : r ∈ rrs ∧ r.rtype = t := by
  induction rrs with
  | nil => simp [findRRset] at h
  | cons old rest ih =>
    by_cases ho : old.rtype = t
    · simp [findRRset, ho] at h
      exact ⟨by simp [h], h ▸ ho⟩
    · simp only [findRRset, if_neg ho] at h
      exact ⟨List.mem_cons_of_mem _ (ih h).1, (ih h).2⟩

theorem findRRset_none_of_countType_zero (rrs : List RRset) (t : Nat)
    (h : countType rrs t = 0) : findRRset rrs t = none := by
  induction rrs with
  | nil => rfl
  | cons old rest ih =>
    by_cases ho : old.rtype = t
    · simp [countType, List.filter_cons, ho] at h
    · rw [countType, List.filter_cons, if_neg (by simpa using ho)] at h
      rw [findRRset, if_neg ho]
      exact ih h

theorem countType_zero_of_findRRset_none (rrs : List RRset) (t : Nat)
    (h : findRRset rrs t = none) : countType rrs t = 0 := by
  induction rrs with
  | nil => rfl
  | cons old rest ih =>
    by_cases ho : old.rtype = t
    · simp [findRRset, ho] at h
    · simp only [findRRset, if_neg ho] at h
      rw [countType, List.filter_cons, if_neg (by simpa using ho)]
      exact ih h

theorem findRRset_filter_none (rrs : List RRset) (t : Nat) (p : RRset → Bool)
    (h : findRRset rrs t = none) : findRRset (rrs.filter p) t = none := by
  induction rrs with
  | nil => rfl
  | cons old rest ih =>
    by_cases ho : old.rtype = t
    · simp [findRRset, ho] at h
    · simp only [findRRset, if_neg ho] at h
      rw [List.filter_cons]
      cases hp : p old
      · simpa using ih h
      · simpa [findRRset, if_neg ho] using ih h

theorem findRRset_filter_of_unique (rrs : List RRset) (t : Nat)
    (p : RRset → Bool) (r : RRset) (hc : countType rrs t ≤ 1)
    (h : findRRset rrs t = some r) :
    findRRset (rrs.filter p) t = (if p r then some r else none) := by
  induction rrs with
  | nil => simp [findRRset] at h
  | cons old rest ih =>
    by_cases ho : old.rtype = t
    · simp only [findRRset, if_pos ho] at h
      injection h with h
      subst h
      have hrest : countType rest t = 0 := by
        rw [countType, List.filter_cons, if_pos (by simpa using ho)] at hc
        simp only [List.length_cons] at hc
        rw [countType]
        omega
      have hnone := findRRset_none_of_countType_zero rest t hrest
      rw [List.filter_cons]
      cases hp : p old
      · rw [if_neg (by simp [hp])]
        rw [findRRset_filter_none rest t p hnone]
        simp
      · rw [if_pos (by simp [hp])]
        rw [findRRset, if_pos ho]
        simp
    · simp only [findRRset, if_neg ho] at h
      have hc' : countType rest t ≤ 1 := by
        rw [countType, List.filter_cons, if_neg (by simpa using ho)] at hc
        exact hc
      rw [List.filter_cons]
      cases hp : p old
      · rw [if_neg (by simp [hp])]
        exact ih hc' h
      · rw [if_pos (by simp [hp]), findRRset, if_neg ho]
        exact ih hc' h

theorem findRRset_storeRRset (rrs : List RRset) (r : RRset) (now : Nat)
    (h : findRRset rrs r.rtype = none) :
    findRRset (storeRRset rrs r now) r.rtype = some r := by
  induction rrs with
  | nil => simp [storeRRset, findRRset]
  | cons old rest ih =>
    by_cases ho : old.rtype = r.rtype
    · simp [findRRset, ho] at h
    · simp only [findRRset, if_neg ho] at h
      rw [storeRRset, if_neg ho, findRRset, if_neg ho]
      exact ih h

theorem countType_storeRRset (rrs : List RRset) (r : RRset) (now : Nat)
    (h : findRRset rrs r.rtype = none) :
    countType (storeRRset rrs r now) r.rtype = 1 := by
  induction rrs with
  | nil => simp [storeRRset, countType, List.filter_cons]
  | cons old rest ih =>
    by_cases ho : old.rtype = r.rtype
    · simp [findRRset, ho] at h
    · simp only [findRRset, if_neg ho] at h
      rw [storeRRset, if_neg ho]
      simp only [countType, List.filter_cons]
      simpa [ho, countType] using ih h

theorem findTypeAt_store (c : Cache) (n : Name) (r : RRset) (now : Nat)
    (h : findTypeAt c n r.rtype = none) :
    findTypeAt (store c n r now) n r.rtype = some r := by
  induction c with
  | nil => simp [store, findTypeAt, findNode, findRRset]
  | cons e rest ih =>
    by_cases he : e.1 = n
    · simp only [findTypeAt, findNode, if_pos he] at h
      rw [store, if_pos he]
      simp only [findTypeAt, findNode, if_pos rfl]
      exact findRRset_storeRRset _ r now h
    · simp only [findTypeAt, findNode, if_neg he] at h
      rw [store, if_neg he]
      simp only [findTypeAt, findNode, if_neg he]
      simpa [findTypeAt] using ih (by simpa [findTypeAt] using h)

theorem countType_findNode_store (c : Cache) (n : Name) (r : RRset) (now : Nat)
    (h : findTypeAt c n r.rtype = none) :
    ∀ nd, findNode (store c n r now) n = some nd →
      countType nd.rrsets r.rtype = 1 := by
  induction c with
  | nil =>
    intro nd hnd
    simp only [store, findNode, if_pos rfl] at hnd
    injection hnd with hnd
    subst hnd
    simp [countType, List.filter_cons]
  | cons e rest ih =>
    intro nd hnd
    by_cases he : e.1 = n
    · simp only [findTypeAt, findNode, if_pos he] at h
      rw [store, if_pos he] at hnd
      simp only [findNode, if_pos rfl] at hnd
      injection hnd with hnd
      subst hnd
      exact countType_storeRRset _ r now h
    · simp only [findTypeAt, findNode, if_neg he] at h
      rw [store, if_neg he] at hnd
      simp only [findNode, if_neg he] at hnd
      exact ih (by simpa [findTypeAt] using h) nd hnd

theorem mem_keys_store (c : Cache) (n : Name) (r : RRset) (now : Nat) (m : Name)
    (h : m ∈ (store c n r now).map Prod.fst) :
    m = n ∨ m ∈ c.map Prod.fst := by
  induction c with
  | nil => simpa [store] using h
  | cons e rest ih =>
    by_cases he : e.1 = n
    · rw [store, if_pos he] at h
      simp only [List.map_cons, List.mem_cons] at h ⊢
      rcases h with h | h
      · exact Or.inl h
      · exact Or.inr (Or.inr h)
    · rw [store, if_neg he] at h
      simp only [List.map_cons, List.mem_cons] at h ⊢
      rcases h with h | h
      · exact Or.inr (Or.inl h)
      · rcases ih h with h' | h'
        · exact Or.inl h'
        · exact Or.inr (Or.inr h')

theorem keysNodup_store (c : Cache) (n : Name) (r : RRset) (now : Nat)
    (h : keysNodup c) : keysNodup (store c n r now) := by
  induction c with
  | nil => simp [store, keysNodup]
  | cons e rest ih =>
    rw [keysNodup, List.map_cons, List.nodup_cons] at h
    by_cases he : e.1 = n
    · rw [keysNodup, store, if_pos he, List.map_cons, List.nodup_cons]
      exact ⟨he ▸ h.1, h.2⟩
    · rw [keysNodup, store, if_neg he, List.map_cons, List.nodup_cons]
      refine ⟨?_, ih h.2⟩
      intro hmem
      rcases mem_keys_store rest n r now e.1 hmem with h' | h'
      · exact he h'
      · exact h.1 h'

theorem findNode_eq_none_of_not_mem_keys (c : Cache) (m : Name)
    (h : m ∉ c.map Prod.fst) : findNode c m = none := by
  induction c with
  | nil => rfl
  | cons e rest ih =>
    simp only [List.map_cons, List.mem_cons] at h
    push_neg at h
    rw [findNode, if_neg (fun hc => h.1 hc.symm)]
    exact ih h.2

theorem findNode_sweep_none (c : Cache) (now : Nat) (m : Name)
    (h : findNode c m = none) : findNode (sweep c now) m = none := by
  induction c with
  | nil => rfl
  | cons e rest ih =>
    by_cases he : e.1 = m
    · simp [findNode, he] at h
    · simp only [findNode, if_neg he] at h
      rw [sweep, List.filterMap_cons]
      cases hs : sweepNode e.2 now
      · simpa [sweep] using ih h
      · simpa [findNode, if_neg he, sweep] using ih h

theorem findNode_sweep (c : Cache) (now : Nat) (m : Name) (hk : keysNodup c) :
    findNode (sweep c now) m = (findNode c m).bind (fun nd => sweepNode nd now) := by
  induction c with
  | nil => rfl
  | cons e rest ih =>
    rw [keysNodup, List.map_cons, List.nodup_cons] at hk
    by_cases he : e.1 = m
    · rw [sweep, List.filterMap_cons]
      cases hs : sweepNode e.2 now
      · have hnone : findNode rest m = none :=
          findNode_eq_none_of_not_mem_keys rest m (he ▸ hk.1)
        rw [findNode, if_pos he]
        simpa [sweep, hs] using findNode_sweep_none rest now m hnone
      · simp [findNode, if_pos he, he, hs, sweep]
    · rw [sweep, List.filterMap_cons]
      cases hs : sweepNode e.2 now
      · rw [findNode, if_neg he]
        simpa [sweep] using ih hk.2
      · rw [findNode, if_neg he]
        simpa [findNode, if_neg he, sweep] using ih hk.2

theorem lookup_sweep_agree (d : Cache) (n : Name) (t now : Nat)
    (hk : keysNodup d)
    (hcount : ∀ nd, findNode d n = some nd → countType nd.rrsets t ≤ 1) :
    lookup (sweep d now) n t now = lookup d n t now := by
  cases hd : findNode d n with
  | none =>
    have hs := findNode_sweep d now n hk
    rw [hd] at hs
    simp [lookup, findTypeAt, hd, hs]
  | some nd =>
    have hs := findNode_sweep d now n hk
    rw [hd, Option.some_bind] at hs
    by_cases hcond : (nd.rrsets.filter (fun r => ! r.expired now)).isEmpty = true ∧ nd.refcount = 0
    · have hsn : sweepNode nd now = none := by
        rw [sweepNode, if_pos hcond]
      rw [hsn] at hs
      have hall : ∀ r ∈ nd.rrsets, r.expired now = true := by
        intro r hr
        by_contra hx
        have hmem : r ∈ nd.rrsets.filter (fun r => ! r.expired now) :=
          List.mem_filter.mpr ⟨hr, by simp [hx]⟩
        rw [List.isEmpty_iff.mp hcond.1] at hmem
        simp at hmem
      cases hf : findRRset nd.rrsets t with
      | none => simp [lookup, findTypeAt, hd, hf, hs]
      | some r =>
        have hre := hall r (findRRset_mem nd.rrsets t r hf).1
        simp [lookup, findTypeAt, hd, hf, hs, hre]
    · have hsn : sweepNode nd now
          = some { rrsets := nd.rrsets.filter (fun r => ! r.expired now),
                   refcount := nd.refcount } := by
        rw [sweepNode, if_neg hcond]
      rw [hsn] at hs
      cases hf : findRRset nd.rrsets t with
      | none =>
        have := findRRset_filter_none nd.rrsets t (fun r => ! r.expired now) hf
        simp [lookup, findTypeAt, hd, hf, hs, this]
      | some r =>
        have hfil := findRRset_filter_of_unique nd.rrsets t
          (fun r => ! r.expired now) r (hcount nd hd) hf
        cases hre : r.expired now
        · simp only [hre, Bool.not_false, if_true] at hfil
          simp [lookup, findTypeAt, hd, hf, hs, hfil, hre]
        · simp only [hre, Bool.not_true, if_false] at hfil
          simp [lookup, findTypeAt, hd, hf, hs, hfil, hre]

theorem mem_dump (c : Cache) (now : Nat) (e : DumpEntry) :
    e ∈ dump c now ↔ ∃ p ∈ c, e ∈ dumpNode p.1 p.2 now := by
  rw [dump]
  exact List.mem_flatMap

theorem mem_dumpNode (n : Name) (node : Node) (now : Nat) (e : DumpEntry) :
    e ∈ dumpNode n node now ↔
      ∃ r ∈ node.rrsets, r.expired now = false
        ∧ e = { name := n, rtype := r.rtype, kind := r.kind,
                remainingTTL := reportedTTL r now, trust := r.trust,
                records := r.records } := by
  rw [dumpNode, List.mem_filterMap]
  constructor
  · rintro ⟨r, hr, hsome⟩
    cases hre : r.expired now
    · rw [hre] at hsome
      simp only [Bool.false_eq_true, if_false] at hsome
      injection hsome with hsome
      exact ⟨r, hr, hre, hsome.symm⟩
    · rw [hre] at hsome
      simp at hsome
  · rintro ⟨r, hr, hre, hef⟩
    refine ⟨r, hr, ?_⟩
    rw [hre]
    simp [hef]

/-! ### Claim theorems about the flush coordinator -/

/-- C1: `flushTree(name)` removes the node at `name` (when present) and every
node whose name is a proper descendant of `name`, while every ancestor of
`name` and every name outside the subtree keeps exactly the data it had, so it
stays retrievable. -/
theorem flushTree_flushes_subtree_only (c : Cache) (tgt m : Name) :
    (findNode (flushTree c tgt).2 m
      = if isSuffixName tgt m then none else findNode c m)
    ∧ ∀ t now, lookup (flushTree c tgt).2 m t now
      = if isSuffixName tgt m then none else lookup c m t now := by
  have hfind := findNode_filter (fun x => ! isSuffixName tgt x) c m
  constructor
  · rw [flushTree] at *
    cases h : isSuffixName tgt m <;> simp [h] at hfind ⊢ <;> exact hfind
  · intro t now
    rw [flushTree] at *
    cases h : isSuffixName tgt m <;> simp [h] at hfind ⊢
    · exact lookup_eq_of_findNode_eq c _ m hfind t now
    · simp [lookup, findTypeAt, hfind]

/-- C2: when the target name has no node of its own, `flushTree` still removes
every existing node below it, and it returns success even when nothing existed
at or under the target. -/
theorem flushTree_from_nonexistent_interior (c : Cache) (tgt : Name)
    (habs : findNode c tgt = none) :
    (flushTree c tgt).1 = IscResult.success
    ∧ ∀ m, isSuffixName tgt m = true → findNode (flushTree c tgt).2 m = none := by
  refine ⟨rfl, ?_⟩
  intro m hm
  have hfind := findNode_filter (fun x => ! isSuffixName tgt x) c m
  rw [flushTree]
  simpa [hm] using hfind

/-- Instance of the C2 theorem: flushing the subtree of the absent interior
name `top2.example` removes the existing leaf `second1.top2.example`, and the
call reports success. -/
theorem flushTree_from_nonexistent_interior_witness :
    (flushTree cacheW ["top2", "example"]).1 = IscResult.success
    ∧ findNode (flushTree cacheW ["top2", "example"]).2
        ["second1", "top2", "example"] = none :=
  ⟨(flushTree_from_nonexistent_interior cacheW ["top2", "example"] (by decide)).1,
   (flushTree_from_nonexistent_interior cacheW ["top2", "example"] (by decide)).2
     ["second1", "top2", "example"] (by decide)⟩

/-- C3: `flushName(N)` removes every RRset stored at exactly `N` — positive
and negative entries alike, since the whole node goes — and leaves the data at
every other name (ancestors, descendants, siblings) unchanged and
retrievable. -/
theorem flushName_exact_scope (c : Cache) (n m : Name) :
    (findNode (flushName c n).2 m = if m = n then none else findNode c m)
    ∧ ∀ t now, lookup (flushName c n).2 m t now
      = if m = n then none else lookup c m t now := by
  have hfind := findNode_filter (fun x => ! decide (x = n)) c m
  constructor
  · rw [flushName] at *
    by_cases h : m = n <;> simp [h] at hfind ⊢ <;> exact hfind
  · intro t now
    rw [flushName] at *
    by_cases h : m = n <;> simp [h] at hfind ⊢
    · simp [lookup, findTypeAt, hfind]
    · exact lookup_eq_of_findNode_eq c _ m hfind t now

/-- C4: flushing a name absent from the cache returns success (absence is not
an error) and leaves the cache contents unchanged. -/
theorem flushName_absent_is_noop (c : Cache) (n : Name)
    (habs : findNode c n = none) :
    (flushName c n).1 = IscResult.success ∧ (flushName c n).2 = c :=
  ⟨rfl, findNode_none_filter_eq_self c n habs⟩

/-- Instance of the C4 theorem: flushing the absent name `fake.example`
reports success and leaves the sample cache exactly as it was. -/
theorem flushName_absent_is_noop_witness :
    (flushName cacheW ["fake", "example"]).1 = IscResult.success
    ∧ (flushName cacheW ["fake", "example"]).2 = cacheW :=
  flushName_absent_is_noop cacheW ["fake", "example"] (by decide)

/-- C6: a record stored at time `t0` with TTL `ttl` (into a well-formed cache
holding no RRset of that type at that name yet) is returned by every lookup
strictly before its absolute expiry `t0 + ttl`, every lookup at or after the
expiry misses even though no sweep has run (lazy expiry), and running the
eager background sweep never changes the result a lookup sees, so lazy and
eager expiry agree. -/
theorem store_lookup_expiry_agree (c : Cache) (n : Name) (t : Nat)
    (k : EntryKind) (recs : List String) (tr ttl t0 : Nat)
    (hk : keysNodup c) (hfresh : findTypeAt c n t = none) :
    (∀ now, now < t0 + ttl →
      lookup (store c n (mkRRset t k recs tr ttl t0) t0) n t now
        = some (mkRRset t k recs tr ttl t0))
    ∧ (∀ now, t0 + ttl ≤ now →
      lookup (store c n (mkRRset t k recs tr ttl t0) t0) n t now = none)
    ∧ (∀ now,
      lookup (sweep (store c n (mkRRset t k recs tr ttl t0) t0) now) n t now
        = lookup (store c n (mkRRset t k recs tr ttl t0) t0) n t now) := by
  have hty := findTypeAt_store c n (mkRRset t k recs tr ttl t0) t0 hfresh
  rw [show (mkRRset t k recs tr ttl t0).rtype = t from rfl] at hty
  refine ⟨?_, ?_, ?_⟩
  · intro now hnow
    rw [lookup, hty, Option.some_bind,
      if_neg (by simp only [RRset.expired, mkRRset, decide_eq_true_eq]; omega)]
  · intro now hnow
    rw [lookup, hty, Option.some_bind,
      if_pos (by simp only [RRset.expired, mkRRset, decide_eq_true_eq]; omega)]
  · intro now
    exact lookup_sweep_agree _ n t now
      (keysNodup_store c n (mkRRset t k recs tr ttl t0) t0 hk)
      (fun nd hnd => le_of_eq
        (countType_findNode_store c n (mkRRset t k recs tr ttl t0) t0 hfresh nd hnd))

/-- Instance of the C6 theorem: a record stored at time 0 with TTL 3600 into
the empty cache is retrievable at time 5, missed at time 3600 with no sweep
having run, and the sweep at time 3600 leaves the lookup result unchanged. -/
theorem store_lookup_expiry_agree_witness :
    (lookup (store [] ["top1", "example"] (mkRRset 16 EntryKind.positive ["w"] 0 3600 0) 0)
      ["top1", "example"] 16 5 = some (mkRRset 16 EntryKind.positive ["w"] 0 3600 0))
    ∧ (lookup (store [] ["top1", "example"] (mkRRset 16 EntryKind.positive ["w"] 0 3600 0) 0)
      ["top1", "example"] 16 3600 = none)
    ∧ (lookup (sweep (store [] ["top1", "example"] (mkRRset 16 EntryKind.positive ["w"] 0 3600 0) 0) 3600)
      ["top1", "example"] 16 3600
      = lookup (store [] ["top1", "example"] (mkRRset 16 EntryKind.positive ["w"] 0 3600 0) 0)
      ["top1", "example"] 16 3600) :=
  ⟨(store_lookup_expiry_agree [] ["top1", "example"] 16 EntryKind.positive ["w"]
      0 3600 0 (by simp [keysNodup]) (by decide)).1 5 (by decide),
   (store_lookup_expiry_agree [] ["top1", "example"] 16 EntryKind.positive ["w"]
      0 3600 0 (by simp [keysNodup]) (by decide)).2.1 3600 (by decide),
   (store_lookup_expiry_agree [] ["top1", "example"] 16 EntryKind.positive ["w"]
      0 3600 0 (by simp [keysNodup]) (by decide)).2.2 3600⟩

/-- C7, counterexample: with lazy expiry only, the invariant fails once time
passes between operations — a record stored at time 0 with TTL 1, followed by
an unrelated point flush at time 2, leaves a node that `rangeUnderName`
enumerates although it has no non-expired RRset, no references, and is not an
empty non-terminal anchor. -/
theorem rangeUnderName_count_invariant_counterexample :
    rangeUnderName (applyTimedOps opsCexC7 []) rootName
      ≠ (applyTimedOps opsCexC7 []).filter
          (nodeRequired (applyTimedOps opsCexC7 []) 2) := by
  decide

/-- C7, amended: after every operation of a time-stamped store/flush sequence
(arbitrary timestamps, arbitrary TTLs, starting from the empty cache), the
nodes enumerated by `rangeUnderName` from the root are exactly those with at
least one non-expired RRset, a positive reference count, or required
empty-non-terminal status — counts included — provided the cleaning engine's
eager sweep runs at each operation's instant; it is the sweep that
re-establishes the invariant, which the counterexample shows lazy expiry
alone does not maintain. -/
theorem rangeUnderName_count_invariant_swept (ops : List (Nat × CacheOp))
    (tm : Nat) (op : CacheOp) :
    rangeUnderName (applyOpsSwept (ops ++ [(tm, op)]) []) rootName
      = (applyOpsSwept (ops ++ [(tm, op)]) []).filter
          (nodeRequired (applyOpsSwept (ops ++ [(tm, op)]) []) tm)
    ∧ (rangeUnderName (applyOpsSwept (ops ++ [(tm, op)]) []) rootName).length
      = ((applyOpsSwept (ops ++ [(tm, op)]) []).filter
          (nodeRequired (applyOpsSwept (ops ++ [(tm, op)]) []) tm)).length := by
  have hlast : applyOpsSwept (ops ++ [(tm, op)]) []
      = sweep (applyOp tm (applyOpsSwept ops []) op) tm := by
    rw [applyOpsSwept, List.foldl_append]
    rfl
  have hreq : ∀ e ∈ applyOpsSwept (ops ++ [(tm, op)]) [],
      nodeRequired (applyOpsSwept (ops ++ [(tm, op)]) []) tm e = true := by
    intro e he
    rw [hlast] at he
    have hlr := sweep_mem_live_or_ref (applyOp tm (applyOpsSwept ops []) op) tm e he
    have hlr' : nodeLive tm e.2 = true ∨ decide (0 < e.2.refcount) = true := by
      simpa using hlr
    rcases hlr' with h | h
    · simp [nodeRequired, h]
    · simp [nodeRequired, h]
  have hfil : (applyOpsSwept (ops ++ [(tm, op)]) []).filter
        (nodeRequired (applyOpsSwept (ops ++ [(tm, op)]) []) tm)
      = applyOpsSwept (ops ++ [(tm, op)]) [] :=
    List.filter_eq_self.mpr hreq
  have hrange : rangeUnderName (applyOpsSwept (ops ++ [(tm, op)]) []) rootName
      = applyOpsSwept (ops ++ [(tm, op)]) [] := by
    rw [rangeUnderName]
    exact List.filter_eq_self.mpr (fun e _ => isSuffixName_nil_left e.1)
  exact ⟨hrange.trans hfil.symm, by rw [hrange, hfil]⟩

/-- C5: a whole-cache flush invalidates every node — afterwards every lookup
of previously stored data misses and the dump contains zero records, for every
prior cache state. -/
theorem flushAll_invalidates_everything (c : Cache) (n : Name) (t now : Nat) :
    (flushAll c).1 = IscResult.success
    ∧ lookup (flushAll c).2 n t now = none
    ∧ dump (flushAll c).2 now = [] :=
  ⟨rfl, rfl, rfl⟩

/-- C8, counterexample: the claim that every cached record reports a
remaining TTL strictly below the ceiling fails at a concrete input — a record
stored at time 0 with TTL 3600 and dumped at time 0 reports exactly 3600,
which is not strictly below the 3600 ceiling. -/
theorem dump_ttl_strict_ceiling_counterexample :
    ¬ (∀ e ∈ dump cacheW 0, e.remainingTTL < ttlCeiling) := by
  decide

/-- C8, amended: every dump line comes from a non-expired RRset of an indexed
node and reports `min (expiry − now) ceiling` as remaining TTL; this is never
above the ceiling, and whenever `expiry − now` is strictly below the ceiling
(as in the default test configuration, where stored TTLs are at most 3600 and
at least one second elapses before the dump) the reported TTL equals
`expiry − now` and is strictly below the ceiling. -/
theorem dump_reported_ttl_spec (c : Cache) (now : Nat) (e : DumpEntry)
    (he : e ∈ dump c now) :
    ∃ p ∈ c, ∃ r ∈ p.2.rrsets, r.expired now = false
      ∧ e.remainingTTL = min (r.expiry - now) ttlCeiling
      ∧ e.remainingTTL ≤ ttlCeiling
      ∧ (r.expiry - now < ttlCeiling →
          e.remainingTTL = r.expiry - now ∧ e.remainingTTL < ttlCeiling) := by
  rcases (mem_dump c now e).mp he with ⟨p, hp, hmem⟩
  rcases (mem_dumpNode p.1 p.2 now e).mp hmem with ⟨r, hr, hre, hef⟩
  have hTTL : e.remainingTTL = min (r.expiry - now) ttlCeiling := by
    rw [hef]
    rfl
  refine ⟨p, hp, r, hr, hre, hTTL, ?_, ?_⟩
  · omega
  · intro hlt
    exact ⟨by omega, by omega⟩

/-- Instance of the C8 amended theorem at the concrete dump line of `cacheW`
taken at time 0. -/
theorem dump_reported_ttl_spec_witness :
    ∃ p ∈ cacheW, ∃ r ∈ p.2.rrsets, r.expired 0 = false
      ∧ entryW.remainingTTL = min (r.expiry - 0) ttlCeiling
      ∧ entryW.remainingTTL ≤ ttlCeiling
      ∧ (r.expiry - 0 < ttlCeiling →
          entryW.remainingTTL = r.expiry - 0 ∧ entryW.remainingTTL < ttlCeiling) :=
  dump_reported_ttl_spec cacheW 0 entryW (by decide)

end DnsCache

namespace Kasp

/-- Fields of `dns_kasp_t` that `dns_kasplist_find` and `dns_kasp_attach`
touch: the policy name, the reference count and the frozen flag. -/
structure Kasp where
  name : String
  references : Nat
  frozen : Bool
deriving DecidableEq

/-- Embeds `dns_kasp_attach`: increments the source's reference count by one
and hands the source back as the attached target. -/
def dns_kasp_attach (source : Kasp) : Kasp :=
  { source with references := source.references + 1 }

/-- Search loop of `dns_kasplist_find`: walks the list in order and, at the
first element whose name compares equal, attaches it (incrementing exactly
that element's reference count); yields the updated list and the attached
element, or nothing when no name matches. -/
def kasplistFindAux : List Kasp → String → Option (List Kasp × Kasp)
  | [], _ => none
  | k :: rest, name =>
    if k.name = name then
      some (dns_kasp_attach k :: rest, dns_kasp_attach k)
    else
      match kasplistFindAux rest name with
      | none => none
      | some (rest', found) => some (k :: rest', found)

/-- Embeds `dns_kasplist_find` with explicit state passing: a NULL list
pointer is `none`; the `kaspp` out-parameter is threaded through and returned
unchanged whenever the result is ISC_R_NOTFOUND. -/
def dns_kasplist_find (list : Option (List Kasp)) (name : String)
    (kaspp : Option Kasp) : IscResult × Option (List Kasp) × Option Kasp :=
  match list with
  | none => (IscResult.notfound, none, kaspp)
  | some l =>
    match kasplistFindAux l name with
    | none => (IscResult.notfound, some l, kaspp)
    | some (l', k) => (IscResult.success, some l', some k)

theorem kasplistFindAux_none (l : List Kasp) (name : String)
    (h : ∀ k ∈ l, k.name ≠ name) : kasplistFindAux l name = none := by
  induction l with
  | nil => rfl
  | cons k rest ih =>
    rw [kasplistFindAux, if_neg (h k (List.mem_cons_self _ _)),
      ih (fun x hx => h x (List.mem_cons_of_mem _ hx))]

theorem kasplistFindAux_first_match (name : String) :
    ∀ (l : List Kasp) (i : Nat) (hi : i < l.length),
      (l.get ⟨i, hi⟩).name = name →
      (∀ j (hj : j < i), (l.get ⟨j, Nat.lt_trans hj hi⟩).name ≠ name) →
      kasplistFindAux l name
        = some (l.set i (dns_kasp_attach (l.get ⟨i, hi⟩)),
                dns_kasp_attach (l.get ⟨i, hi⟩)) := by
  intro l
  induction l with
  | nil =>
    intro i hi
    exact absurd hi (Nat.not_lt_zero i)
  | cons k rest ih =>
    intro i hi hname hpre
    cases i with
    | zero =>
      have hname' : k.name = name := hname
      rw [kasplistFindAux, if_pos hname']
      rfl
    | succ i =>
      have hk : k.name ≠ name := hpre 0 (Nat.succ_pos i)
      have hi' : i < rest.length := Nat.lt_of_succ_lt_succ hi
      have hrec := ih i hi' hname
        (fun j hj => hpre (j + 1) (Nat.succ_lt_succ hj))
      rw [kasplistFindAux, if_neg hk, hrec]
      rfl

/-- C9: `dns_kasplist_find` returns ISC_R_NOTFOUND and leaves `*kaspp`
unchanged when the list pointer is NULL or no element's name equals the
searched name; when a match exists it returns ISC_R_SUCCESS, sets `*kaspp` to
the first match in list order, and increments exactly that element's
reference count by exactly one (`dns_kasp_attach`). -/
theorem dns_kasplist_find_spec (name : String) (k0 : Option Kasp) :
    (dns_kasplist_find none name k0 = (IscResult.notfound, none, k0))
    ∧ (∀ l : List Kasp, (∀ k ∈ l, k.name ≠ name) →
        dns_kasplist_find (some l) name k0 = (IscResult.notfound, some l, k0))
    ∧ (∀ (l : List Kasp) (i : Nat) (hi : i < l.length),
        (l.get ⟨i, hi⟩).name = name →
        (∀ j (hj : j < i), (l.get ⟨j, Nat.lt_trans hj hi⟩).name ≠ name) →
        dns_kasplist_find (some l) name k0
          = (IscResult.success,
             some (l.set i (dns_kasp_attach (l.get ⟨i, hi⟩))),
             some (dns_kasp_attach (l.get ⟨i, hi⟩))))
    ∧ (∀ k : Kasp, (dns_kasp_attach k).references = k.references + 1) := by
  refine ⟨rfl, ?_, ?_, fun _ => rfl⟩
  · intro l h
    rw [dns_kasplist_find, kasplistFindAux_none l name h]
  · intro l i hi hname hpre
    rw [dns_kasplist_find, kasplistFindAux_first_match name l i hi hname hpre]

/-- Sample policy entries for instantiating the search theorem. -/
def kaspA : Kasp := { name := "default", references := 1, frozen := false }

/-- Second sample policy entry, the one the search finds. -/
def kaspB : Kasp := { name := "special", references := 2, frozen := true }

/-- Instance of the C9 theorem: searching `[kaspA, kaspB]` for "special"
succeeds, bumps `kaspB`'s reference count from 2 to 3, and returns it. -/
theorem dns_kasplist_find_witness :
    dns_kasplist_find (some [kaspA, kaspB]) "special" none
      = (IscResult.success,
         some [kaspA, { name := "special", references := 3, frozen := true }],
         some { name := "special", references := 3, frozen := true }) := by
  have hi : 1 < ([kaspA, kaspB] : List Kasp).length := by decide
  have hname : (([kaspA, kaspB] : List Kasp).get ⟨1, hi⟩).name = "special" :=
    (by decide :
      (([kaspA, kaspB] : List Kasp).get ⟨1, by decide⟩).name = "special")
  have hpre : ∀ j (hj : j < 1),
      (([kaspA, kaspB] : List Kasp).get ⟨j, Nat.lt_trans hj hi⟩).name ≠ "special" := by
    intro j hj
    have hj0 : j = 0 := by omega
    subst hj0
    exact (by decide :
      (([kaspA, kaspB] : List Kasp).get ⟨0, by decide⟩).name ≠ "special")
  exact (dns_kasplist_find_spec "special" none).2.2.1 [kaspA, kaspB] 1 hi
    hname hpre

end Kasp

namespace Hmac

/-- Result codes of the DST verify entry point. -/
inductive DstResult where
  | success
  | verifyfailure
deriving DecidableEq

/-- HMAC block size used by the module (`HMAC_LEN`). -/
def HMAC_LEN : Nat := 64

/-- MD5 digest size (`MD5_DIGEST_LENGTH`). -/
def MD5_DIGEST_LENGTH : Nat := 16

/-- Inner pad byte (`HMAC_IPAD`). -/
def HMAC_IPAD : Nat := 0x36

/-- Outer pad byte (`HMAC_OPAD`). -/
def HMAC_OPAD : Nat := 0x5c

/-- Embeds the pad setup of `hmacmd5_createctx` and `hmacmd5_sign`: each of
the 64 bytes of the stored key array is XORed with the pad byte; the stored
key array is zero-filled past the actual key bytes, which `getD _ 0`
reproduces. -/
def xorPad (hkey : List Nat) (pad : Nat) : List Nat :=
  (List.range HMAC_LEN).map (fun i => Nat.xor (hkey.getD i 0) pad)

/-- Embeds `hmacmd5_sign` (context creation included): the final digest is
`md5(opadded-key ++ md5(ipadded-key ++ data))`, parameterized by the external
MD5 primitive the module calls through `dst_context_digest`. -/
def hmacmd5_sign (md5 : List Nat → List Nat) (hkey data : List Nat) :
    List Nat :=
  md5 (xorPad hkey HMAC_OPAD ++ md5 (xorPad hkey HMAC_IPAD ++ data))

/-- Embeds `hmacmd5_verify`: a signature region shorter than 16 bytes fails
outright; otherwise the recomputed digest is compared (`memcmp` over exactly
16 bytes) with the first 16 bytes of the signature. -/
def hmacmd5_verify (md5 : List Nat → List Nat) (hkey data sg : List Nat) :
    DstResult :=
  if sg.length < MD5_DIGEST_LENGTH then
    DstResult.verifyfailure
  else if sg.take MD5_DIGEST_LENGTH
      = (hmacmd5_sign md5 hkey data).take MD5_DIGEST_LENGTH then
    DstResult.success
  else
    DstResult.verifyfailure

/-- C10: `hmacmd5_verify` fails for every signature shorter than 16 bytes;
for signatures of length at least 16 (with the MD5 primitive producing
16-byte digests as OpenSSL's does) it succeeds exactly when the first 16
signature bytes equal the recomputed HMAC-MD5 digest of the accumulated data
under the context's key, and any signature bytes beyond the first 16 are
ignored. -/
theorem hmacmd5_verify_spec (md5 : List Nat → List Nat)
    (hlen : ∀ x, (md5 x).length = MD5_DIGEST_LENGTH)
    (hkey data sg : List Nat) :
    (sg.length < MD5_DIGEST_LENGTH →
      hmacmd5_verify md5 hkey data sg = DstResult.verifyfailure)
    ∧ (MD5_DIGEST_LENGTH ≤ sg.length →
        (hmacmd5_verify md5 hkey data sg = DstResult.success
          ↔ sg.take MD5_DIGEST_LENGTH = hmacmd5_sign md5 hkey data))
    ∧ (∀ extra, MD5_DIGEST_LENGTH ≤ sg.length →
        hmacmd5_verify md5 hkey data (sg ++ extra)
          = hmacmd5_verify md5 hkey data sg) := by
  have hdig : (hmacmd5_sign md5 hkey data).take MD5_DIGEST_LENGTH
      = hmacmd5_sign md5 hkey data :=
    List.take_of_length_le (le_of_eq (hlen _))
  refine ⟨?_, ?_, ?_⟩
  · intro hshort
    rw [hmacmd5_verify, if_pos hshort]
  · intro hlong
    rw [hmacmd5_verify, if_neg (by omega), hdig]
    by_cases hcmp : sg.take MD5_DIGEST_LENGTH = hmacmd5_sign md5 hkey data
    · rw [if_pos hcmp]
      simp [hcmp]
    · rw [if_neg hcmp]
      simp [hcmp]
  · intro extra hlong
    have h1 : ¬ ((sg ++ extra).length < MD5_DIGEST_LENGTH) := by
      rw [List.length_append]
      omega
    have h2 : ¬ (sg.length < MD5_DIGEST_LENGTH) := by omega
    have htake : (sg ++ extra).take MD5_DIGEST_LENGTH
        = sg.take MD5_DIGEST_LENGTH :=
      List.take_append_of_le_length hlong
    rw [hmacmd5_verify, hmacmd5_verify, if_neg h1, if_neg h2, htake]

/-- Toy 16-byte digest function standing in for MD5 when instantiating the
verify theorem on concrete data. -/
def md5Toy : List Nat → List Nat :=
  fun l => List.replicate 15 0 ++ [l.length % 256]

/-- Correct signature for the sample key and data under `md5Toy`. -/
def sigGood : List Nat := hmacmd5_sign md5Toy [1, 2, 3] [7, 7]

/-- Instance of the C10 theorem: for the sample key, data and well-formed
16-byte signature, verification succeeds exactly when the first 16 signature
bytes match the recomputed digest. -/
theorem hmacmd5_verify_witness :
    hmacmd5_verify md5Toy [1, 2, 3] [7, 7] sigGood = DstResult.success
      ↔ sigGood.take MD5_DIGEST_LENGTH = hmacmd5_sign md5Toy [1, 2, 3] [7, 7] :=
  (hmacmd5_verify_spec md5Toy
    (by intro x; simp [md5Toy, MD5_DIGEST_LENGTH])
    [1, 2, 3] [7, 7] sigGood).2.1 (by decide)

end Hmac
